import Mathlib

set_option maxHeartbeats 1000000

/-!
Shallow embedding of the obsidian-attachment-uploader plugin core.

Strings are modelled as lists of characters (`Str`).  Every definition below
is translated from the plugin's main source file; the source line numbers of
the corresponding TypeScript are given in the doc comments.
-/

abbrev Str := List Char

/-- JavaScript whitespace character class (the class used by the regex escape
for whitespace): space, tab, line feed, vertical tab, form feed, carriage
return, and the Unicode space characters recognised by JavaScript engines. -/
def isJsWs (c : Char) : Bool :=
  let n := c.toNat
  (n == 32) || (n == 9) || (n == 10) || (n == 11) || (n == 12) || (n == 13) ||
  (n == 0xa0) || (n == 0x1680) || (decide (0x2000 ≤ n) && decide (n ≤ 0x200a)) ||
  (n == 0x2028) || (n == 0x2029) || (n == 0x202f) || (n == 0x205f) ||
  (n == 0x3000) || (n == 0xfeff)

/-- Settings of the plugin (interface `S3UploaderSettings`, source lines
40-54), restricted to the fields the modelled operations read. -/
structure S3UploaderSettings where
  bucketName : Str
  baseUrl : Str
  folderPath : Str
  allowedExtensions : Str
  organizeByDate : Bool
  dateFormat : Str
  usePathStyle : Bool
  retryCount : Nat
  trashPath : Str
  moveToTrash : Bool
deriving DecidableEq, Repr

/-- Worker for `sanitizeFileName`: the flag records whether we are inside a
whitespace run that has already produced its hyphen. -/
def collapseWsAux (inRun : Bool) : Str → Str
  | [] => []
  | c :: rest =>
    if isJsWs c then
      if inRun then collapseWsAux true rest
      else '-' :: collapseWsAux true rest
    else c :: collapseWsAux false rest

/-- File-name sanitisation in `uploadAndReplaceAttachment` (source line 235):
`attachment.name.replace` of every maximal whitespace run with a single
hyphen (a global regex replace of one-or-more whitespace characters). -/
def sanitizeFileName (name : Str) : Str := collapseWsAux false name

/-- Fuelled worker for `replaceToken`; the fuel only serves to make the
recursion structural and is always at least the length of the string. -/
def replaceTokenFuel (pat rep : Str) : Nat → Str → Str
  | 0, s => s
  | _ + 1, [] => []
  | fuel + 1, c :: rest =>
    if pat ≠ [] ∧ pat.isPrefixOf (c :: rest) then
      rep ++ replaceTokenFuel pat rep fuel ((c :: rest).drop pat.length)
    else
      c :: replaceTokenFuel pat rep fuel rest

/-- Global replacement of a literal token, as performed by the chained
`.replace(/TOKEN/g, value)` calls in `formatDate` (source lines 421-428):
leftmost, non-overlapping occurrences, left to right. -/
def replaceToken (pat rep s : Str) : Str := replaceTokenFuel pat rep s.length s

/-- JavaScript `String(n).padStart(2, '0')` as used for the date components. -/
def padStart2 (s : Str) : Str := List.replicate (2 - s.length) '0' ++ s

/-- Decimal rendering of a natural number as a character list. -/
def natStr (n : Nat) : Str := (Nat.repr n).data

/-- Input of `formatDate`: the components a JavaScript `Date` exposes through
`getFullYear`, `getMonth` (0-based), `getDate`, `getHours`, `getMinutes`,
`getSeconds`. -/
structure JsDate where
  fullYear : Nat
  monthIndex : Nat
  dayOfMonth : Nat
  hours : Nat
  minutes : Nat
  seconds : Nat
deriving DecidableEq, Repr

/-- The method `formatDate(date, format)` (source lines 413-429): sequential global
replacement of the tokens YYYY, YY, MM, DD, HH, mm, ss in that order. -/
def formatDate (d : JsDate) (format : Str) : Str :=
  let year := natStr d.fullYear
  let month := padStart2 (natStr (d.monthIndex + 1))
  let day := padStart2 (natStr d.dayOfMonth)
  let hour := padStart2 (natStr d.hours)
  let minute := padStart2 (natStr d.minutes)
  let second := padStart2 (natStr d.seconds)
  replaceToken "ss".data second
    (replaceToken "mm".data minute
      (replaceToken "HH".data hour
        (replaceToken "DD".data day
          (replaceToken "MM".data month
            (replaceToken "YY".data (year.drop (year.length - 2))
              (replaceToken "YYYY".data year format))))))

/-- Remote key construction in `uploadAndReplaceAttachment` (source lines
235-250).  The JavaScript truthiness test `if (this.settings.folderPath)` is
the non-emptiness test on the string. -/
def computeKey (S : S3UploaderSettings) (t : JsDate) (name : Str) : Str :=
  let sanitizedFileName := sanitizeFileName name
  if S.organizeByDate then
    let datePath := formatDate t S.dateFormat
    if S.folderPath ≠ [] then
      S.folderPath ++ '/' :: (datePath ++ '/' :: sanitizedFileName)
    else
      datePath ++ '/' :: sanitizedFileName
  else
    if S.folderPath ≠ [] then S.folderPath ++ '/' :: sanitizedFileName
    else sanitizedFileName

/-- Cloud URL construction in `uploadAndReplaceAttachment` (source lines
267-272). -/
def computeCloudUrl (S : S3UploaderSettings) (key : Str) : Str :=
  if S.usePathStyle then S.baseUrl ++ '/' :: (S.bucketName ++ '/' :: key)
  else S.baseUrl ++ '/' :: key

/-- Index of the first occurrence of `pat` in a string, as computed by
JavaScript `String.prototype.indexOf` (`none` when absent; `includes` is
`isSome` of this). -/
def indexOfSub (pat : Str) : Str → Option Nat
  | [] => if pat.isPrefixOf ([] : Str) then some 0 else none
  | c :: t =>
    if pat.isPrefixOf (c :: t) then some 0
    else (indexOfSub pat t).map (· + 1)

/-- Key recovery from a URL in `findAllObsidianReferences` (source lines
509-523): when the URL contains the base URL, drop everything up to and
including the first occurrence of the base URL, drop a single leading slash,
truncate at the first question mark and then at the first hash sign, and keep
the result only when it is non-empty. -/
def extractS3KeyFromUrl (baseUrl url : Str) : Option Str :=
  match indexOfSub baseUrl url with
  | none => none
  | some i =>
    let s1 := url.drop (i + baseUrl.length)
    let s2 := match s1 with
      | '/' :: t => t
      | _ => s1
    let s3 := (s2.takeWhile (· != '?')).takeWhile (· != '#')
    if s3 = [] then none else some s3

/-- Sample settings used by the concrete evaluations below (the plugin's
defaults with a base URL and bucket filled in). -/
def egSettings : S3UploaderSettings where
  bucketName := "b".data
  baseUrl := "https://c".data
  folderPath := "obsidian-attachments".data
  allowedExtensions := "png,jpg,jpeg,gif,bmp,svg,webp,pdf,doc,docx,ppt,pptx,xls,xlsx,mp4,mp3,wav,avi,mov".data
  organizeByDate := false
  dateFormat := "YYYY/MM/DD".data
  usePathStyle := false
  retryCount := 3
  trashPath := ".trash".data
  moveToTrash := true

/-- Sample date used by the concrete evaluations below. -/
def egDate : JsDate where
  fullYear := 2024
  monthIndex := 0
  dayOfMonth := 2
  hours := 3
  minutes := 4
  seconds := 5

theorem collapseWsAux_no_ws (l : Str) :
    ∀ (b : Bool), ∀ c ∈ collapseWsAux b l, isJsWs c = false := by
  induction l with
  | nil => intro b c hc; simp [collapseWsAux] at hc
  | cons a rest ih =>
    intro b c hc
    by_cases ha : isJsWs a
    · cases b with
      | true =>
        simp only [collapseWsAux, ha, if_true] at hc
        exact ih true c hc
      | false =>
        simp only [collapseWsAux, ha, if_true] at hc
        rcases List.mem_cons.mp hc with h | h
        · subst h; decide
        · exact ih true c h
    · simp only [collapseWsAux, ha, if_false] at hc
      rcases List.mem_cons.mp hc with h | h
      · subst h
        simpa using ha
      · exact ih false c h

theorem collapseWsAux_eq_self (l : Str) (h : ∀ c ∈ l, isJsWs c = false) :
    ∀ b, collapseWsAux b l = l := by
  induction l with
  | nil => intro b; simp [collapseWsAux]
  | cons a rest ih =>
    intro b
    have ha : isJsWs a = false := h a (by simp)
    have hr := ih (fun c hc => h c (by simp [hc])) false
    simp [collapseWsAux, ha, hr]

theorem sanitizeFileName_no_ws (name : Str) :
    ∀ c ∈ sanitizeFileName name, isJsWs c = false :=
  collapseWsAux_no_ws name false

theorem sanitizeFileName_idem (name : Str) :
    sanitizeFileName (sanitizeFileName name) = sanitizeFileName name :=
  collapseWsAux_eq_self _ (sanitizeFileName_no_ws name) false

/-- C5: Key and URL construction: for every file name, settings, and time,
the computed remote key equals folderPath/datePath/sanitizedName when
organizeByDate and folderPath is non-empty, datePath/sanitizedName when
organizeByDate and folderPath is empty, folderPath/sanitizedName when not
organizeByDate and folderPath is non-empty, and sanitizedName otherwise; and
the cloud URL equals baseUrl/bucketName/key when usePathStyle is true and
baseUrl/key when it is false, with baseUrl used verbatim. -/
theorem c5_key_and_url_construction (S : S3UploaderSettings) (t : JsDate) (name : Str) :
    (S.organizeByDate = true → S.folderPath ≠ [] →
      computeKey S t name =
        S.folderPath ++ '/' :: (formatDate t S.dateFormat ++ '/' :: sanitizeFileName name)) ∧
    (S.organizeByDate = true → S.folderPath = [] →
      computeKey S t name = formatDate t S.dateFormat ++ '/' :: sanitizeFileName name) ∧
    (S.organizeByDate = false → S.folderPath ≠ [] →
      computeKey S t name = S.folderPath ++ '/' :: sanitizeFileName name) ∧
    (S.organizeByDate = false → S.folderPath = [] →
      computeKey S t name = sanitizeFileName name) ∧
    (S.usePathStyle = true → ∀ key,
      computeCloudUrl S key = S.baseUrl ++ '/' :: (S.bucketName ++ '/' :: key)) ∧
    (S.usePathStyle = false → ∀ key,
      computeCloudUrl S key = S.baseUrl ++ '/' :: key) := by
  refine ⟨?_, ?_, ?_, ?_, ?_, ?_⟩
  · intro ho hf; simp [computeKey, ho, hf]
  · intro ho hf; simp [computeKey, ho, hf]
  · intro ho hf; simp [computeKey, ho, hf]
  · intro ho hf; simp [computeKey, ho, hf]
  · intro hp key; simp [computeCloudUrl, hp]
  · intro hp key; simp [computeCloudUrl, hp]

/-- Witness for C5: the six cases evaluated at concrete settings, names and
a concrete date. -/
theorem c5_witness :
    computeKey { egSettings with organizeByDate := true, folderPath := "f".data }
        egDate "a b.png".data = "f/2024/01/02/a-b.png".data ∧
    computeKey { egSettings with organizeByDate := true, folderPath := [] }
        egDate "a.png".data = "2024/01/02/a.png".data ∧
    computeKey egSettings egDate "a.png".data = "obsidian-attachments/a.png".data ∧
    computeKey { egSettings with folderPath := [] } egDate "a.png".data = "a.png".data ∧
    computeCloudUrl { egSettings with usePathStyle := true } "k".data = "https://c/b/k".data ∧
    computeCloudUrl egSettings "k".data = "https://c/k".data := by
  refine ⟨?_, ?_, ?_, ?_, ?_, ?_⟩
  · exact ((c5_key_and_url_construction _ egDate _).1 rfl (by decide)).trans (by decide)
  · exact ((c5_key_and_url_construction _ egDate _).2.1 rfl rfl).trans (by decide)
  · exact ((c5_key_and_url_construction _ egDate _).2.2.1 rfl (by decide)).trans (by decide)
  · exact ((c5_key_and_url_construction _ egDate _).2.2.2.1 rfl rfl).trans (by decide)
  · exact (((c5_key_and_url_construction _ egDate "a".data).2.2.2.2.1 rfl) "k".data).trans (by decide)
  · exact (((c5_key_and_url_construction _ egDate "a".data).2.2.2.2.2 rfl) "k".data).trans (by decide)

/-- C6 counterexample: the claim quantifies over every file name and computed
key, but a folder path containing whitespace puts whitespace into the
computed remote key even though the file name's own whitespace was
hyphenated, so the computed key is not whitespace-free. -/
theorem c6_counterexample :
    (∃ c ∈ ("x y.png".data : Str), isJsWs c = true) ∧
    (∃ c ∈ computeKey { egSettings with folderPath := " a".data } egDate "x y.png".data,
      isJsWs c = true) := by decide

/-- C6 (amended): the sanitised file name contains no whitespace and
sanitisation is idempotent; the computed remote key is whitespace-free
provided the folder path and the formatted date path are whitespace-free. -/
theorem c6_amended (S : S3UploaderSettings) (t : JsDate) (name : Str)
    (hf : ∀ c ∈ S.folderPath, isJsWs c = false)
    (hd : ∀ c ∈ formatDate t S.dateFormat, isJsWs c = false) :
    (∀ c ∈ sanitizeFileName name, isJsWs c = false) ∧
    sanitizeFileName (sanitizeFileName name) = sanitizeFileName name ∧
    (∀ c ∈ computeKey S t name, isJsWs c = false) := by
  refine ⟨sanitizeFileName_no_ws name, sanitizeFileName_idem name, ?_⟩
  intro c hc
  have hn := sanitizeFileName_no_ws name
  by_cases ho : S.organizeByDate = true
  · by_cases hfp : S.folderPath = ([] : Str)
    · simp [computeKey, ho, hfp, List.mem_append, List.mem_cons] at hc
      rcases hc with h | h | h
      · exact hd c h
      · subst h; decide
      · exact hn c h
    · simp [computeKey, ho, hfp, List.mem_append, List.mem_cons] at hc
      rcases hc with h | h | h | h | h
      · exact hf c h
      · subst h; decide
      · exact hd c h
      · subst h; decide
      · exact hn c h
  · by_cases hfp : S.folderPath = ([] : Str)
    · simp [computeKey, ho, hfp] at hc
      exact hn c hc
    · simp [computeKey, ho, hfp, List.mem_append, List.mem_cons] at hc
      rcases hc with h | h | h
      · exact hf c h
      · subst h; decide
      · exact hn c h

/-- Witness for C6 (amended), at a concrete whitespace-bearing file name and
the sample settings. -/
theorem c6_witness :
    (∀ c ∈ sanitizeFileName "a \t b.png".data, isJsWs c = false) ∧
    sanitizeFileName (sanitizeFileName "a \t b.png".data) = sanitizeFileName "a \t b.png".data ∧
    (∀ c ∈ computeKey egSettings egDate "a \t b.png".data, isJsWs c = false) :=
  c6_amended egSettings egDate "a \t b.png".data (by decide) (by decide)

theorem isPrefixOf_append_self (a b : Str) : a.isPrefixOf (a ++ b) = true := by
  induction a with
  | nil => simp [List.isPrefixOf]
  | cons c t ih => simp [List.isPrefixOf, ih]

theorem indexOfSub_of_isPrefixOf {pat s : Str} (h : pat.isPrefixOf s = true) :
    indexOfSub pat s = some 0 := by
  cases s with
  | nil => simp [indexOfSub, h]
  | cons c t => simp [indexOfSub, h]

theorem takeWhile_eq_self_of_all {α : Type} (p : α → Bool) (l : List α)
    (h : ∀ c ∈ l, p c = true) : l.takeWhile p = l := by
  induction l with
  | nil => simp
  | cons a t ih =>
    simp [List.takeWhile_cons, h a (by simp), ih fun c hc => h c (by simp [hc])]

/-- C7 counterexample: with path-style URLs the collector's normalisation
recovers `bucketName/key`, not `key`, so the round-trip of the claim fails
for `usePathStyle = true`. -/
theorem c7_counterexample :
    extractS3KeyFromUrl ({ egSettings with usePathStyle := true } : S3UploaderSettings).baseUrl
        (computeCloudUrl { egSettings with usePathStyle := true }
          (computeKey { egSettings with usePathStyle := true } egDate "a.png".data))
      ≠ some (computeKey { egSettings with usePathStyle := true } egDate "a.png".data) := by
  decide

/-- C7 (amended): for keys and bucket names free of question marks and hash
signs, the collector's normalisation applied to the computed URL recovers
exactly the computed key when `usePathStyle` is false, and recovers
`bucketName/key` when `usePathStyle` is true. -/
theorem c7_amended (S : S3UploaderSettings) (t : JsDate) (name : Str)
    (hb : S.baseUrl ≠ [])
    (hk : computeKey S t name ≠ [])
    (hq : ∀ c ∈ computeKey S t name, c ≠ '?' ∧ c ≠ '#') :
    (S.usePathStyle = false →
      extractS3KeyFromUrl S.baseUrl (computeCloudUrl S (computeKey S t name))
        = some (computeKey S t name)) ∧
    (S.usePathStyle = true → S.bucketName ≠ [] →
      (∀ c ∈ S.bucketName, c ≠ '?' ∧ c ≠ '#') →
      extractS3KeyFromUrl S.baseUrl (computeCloudUrl S (computeKey S t name))
        = some (S.bucketName ++ '/' :: computeKey S t name)) := by
  constructor
  · intro hp
    have hidx : indexOfSub S.baseUrl (S.baseUrl ++ '/' :: computeKey S t name) = some 0 :=
      indexOfSub_of_isPrefixOf (isPrefixOf_append_self _ _)
    have hq1 : (computeKey S t name).takeWhile (· != '?') = computeKey S t name :=
      takeWhile_eq_self_of_all _ _ (fun c hc => by
        have := (hq c hc).1; simp [this])
    have hq2 : (computeKey S t name).takeWhile (· != '#') = computeKey S t name :=
      takeWhile_eq_self_of_all _ _ (fun c hc => by
        have := (hq c hc).2; simp [this])
    simp [computeCloudUrl, hp, extractS3KeyFromUrl, hidx, List.drop_left, hq1, hq2, hk]
  · intro hp hbk hbq
    have hidx : indexOfSub S.baseUrl
        (S.baseUrl ++ '/' :: (S.bucketName ++ '/' :: computeKey S t name)) = some 0 :=
      indexOfSub_of_isPrefixOf (isPrefixOf_append_self _ _)
    have hall : ∀ c ∈ S.bucketName ++ '/' :: computeKey S t name, c ≠ '?' ∧ c ≠ '#' := by
      intro c hc
      rcases List.mem_append.mp hc with h | h
      · exact hbq c h
      · rcases List.mem_cons.mp h with h | h
        · subst h; exact ⟨by decide, by decide⟩
        · exact hq c h
    have hq1 : (S.bucketName ++ '/' :: computeKey S t name).takeWhile (· != '?')
        = S.bucketName ++ '/' :: computeKey S t name :=
      takeWhile_eq_self_of_all _ _ (fun c hc => by
        have := (hall c hc).1; simp [this])
    have hq2 : (S.bucketName ++ '/' :: computeKey S t name).takeWhile (· != '#')
        = S.bucketName ++ '/' :: computeKey S t name :=
      takeWhile_eq_self_of_all _ _ (fun c hc => by
        have := (hall c hc).2; simp [this])
    have hne : S.bucketName ++ '/' :: computeKey S t name ≠ [] := by simp
    simp [computeCloudUrl, hp, extractS3KeyFromUrl, hidx, List.drop_left, hq1, hq2, hne]

/-- Witness for C7 (amended), at the sample settings (virtual-hosted style)
and a concrete file name. -/
theorem c7_witness :
    extractS3KeyFromUrl egSettings.baseUrl
        (computeCloudUrl egSettings (computeKey egSettings egDate "a.png".data))
      = some (computeKey egSettings egDate "a.png".data) :=
  (c7_amended egSettings egDate "a.png".data (by decide) (by decide) (by decide)).1 rfl

/-- Fuelled scanner for the markdown image pattern of `extractAttachmentPaths`
(source line 331): an exclamation mark, an open bracket, a (possibly empty)
bracket-free alt text, a closing bracket, an open parenthesis, a non-empty
parenthesis-free target, a closing parenthesis.  Matches are found leftmost
and non-overlapping; on a failed match the scan advances one character, as
JavaScript global regex matching does.  The fuel is always at least the
length of the string, so it never runs out. -/
def scanMdImageFuel : Nat → Str → List Str
  | 0, _ => []
  | _ + 1, [] => []
  | fuel + 1, '!' :: '[' :: rest =>
    let alt := rest.takeWhile (· != ']')
    (match rest.drop alt.length with
     | ']' :: '(' :: r2 =>
       let tgt := r2.takeWhile (· != ')')
       if tgt = [] then scanMdImageFuel fuel ('[' :: rest)
       else
         match r2.drop tgt.length with
         | ')' :: r3 => tgt :: scanMdImageFuel fuel r3
         | _ => scanMdImageFuel fuel ('[' :: rest)
     | _ => scanMdImageFuel fuel ('[' :: rest))
  | fuel + 1, _ :: rest => scanMdImageFuel fuel rest

/-- Captured targets of the markdown image pattern over a whole text. -/
def scanMdImage (s : Str) : List Str := scanMdImageFuel s.length s

/-- Fuelled scanner for the plain markdown link pattern of
`findAllObsidianReferences` (source line 497): like the image pattern but
without the leading exclamation mark. -/
def scanMdLinkFuel : Nat → Str → List Str
  | 0, _ => []
  | _ + 1, [] => []
  | fuel + 1, '[' :: rest =>
    let lbl := rest.takeWhile (· != ']')
    (match rest.drop lbl.length with
     | ']' :: '(' :: r2 =>
       let tgt := r2.takeWhile (· != ')')
       if tgt = [] then scanMdLinkFuel fuel rest
       else
         match r2.drop tgt.length with
         | ')' :: r3 => tgt :: scanMdLinkFuel fuel r3
         | _ => scanMdLinkFuel fuel rest
     | _ => scanMdLinkFuel fuel rest)
  | fuel + 1, _ :: rest => scanMdLinkFuel fuel rest

/-- Captured targets of the plain markdown link pattern over a whole text. -/
def scanMdLink (s : Str) : List Str := scanMdLinkFuel s.length s

/-- Fuelled scanner for the wiki link pattern (source lines 340 and 499): two
open brackets, a non-empty bracket-free inner text, two closing brackets. -/
def scanWikiFuel : Nat → Str → List Str
  | 0, _ => []
  | _ + 1, [] => []
  | fuel + 1, '[' :: '[' :: rest =>
    let inner := rest.takeWhile (· != ']')
    (if inner = [] then scanWikiFuel fuel ('[' :: rest)
     else
       match rest.drop inner.length with
       | ']' :: ']' :: r3 => inner :: scanWikiFuel fuel r3
       | _ => scanWikiFuel fuel ('[' :: rest))
  | fuel + 1, _ :: rest => scanWikiFuel fuel rest

/-- Captured inner texts of the wiki link pattern over a whole text. -/
def scanWiki (s : Str) : List Str := scanWikiFuel s.length s

/-- JavaScript `String.prototype.trim`: strip JavaScript whitespace from both
ends. -/
def trimJsWs (s : Str) : Str := ((s.dropWhile isJsWs).reverse.dropWhile isJsWs).reverse

/-- JavaScript `String.prototype.split` on a single separator character: JavaScript
always returns at least one (possibly empty) piece. -/
def splitOnChar (sep : Char) : Str → List Str
  | [] => [[]]
  | c :: rest =>
    let r := splitOnChar sep rest
    if c = sep then [] :: r
    else
      match r with
      | [] => [[c]]
      | h :: t => (c :: h) :: t

/-- The method `isAttachmentPath` (source lines 360-370): the extension is the last
dot-separated segment of the path, lowercased; the allowed-extensions setting
is split on commas, trimmed, lowercased and cleared of empty entries; the
path is an attachment path when its extension is non-empty and listed. -/
def isAttachmentPath (allowedExtensions : Str) (path : Str) : Bool :=
  let ext := ((splitOnChar '.' path).getLast?.getD []).map Char.toLower
  if ext = [] then false
  else
    let allowedExts := ((splitOnChar ',' allowedExtensions).map
      (fun e => (trimJsWs e).map Char.toLower)).filter (fun e => !e.isEmpty)
    allowedExts.contains ext

/-- The method `extractAttachmentPaths` (source lines 327-349): collect the targets of
the markdown image matches whose target does not start with "http", then the
inner texts of the wiki link matches that pass `isAttachmentPath`. -/
def extractAttachmentPaths (allowedExtensions : Str) (content : Str) : List Str :=
  ((scanMdImage content).filter (fun p => !("http".data.isPrefixOf p))) ++
  ((scanWiki content).filter (isAttachmentPath allowedExtensions))

/-- C8 counterexample: the claim says the target of the plain link form
`[label](target)` is returned when the target is not an URL, but
`extractAttachmentPaths` only matches the image form with a leading
exclamation mark, so `a.png` is not extracted from `[label](a.png)`. -/
theorem c8_counterexample :
    ("a.png".data ∈ extractAttachmentPaths egSettings.allowedExtensions "[label](a.png)".data)
      = False := by decide

/-- C8 (amended): `extractAttachmentPaths` returns exactly the targets of the
leftmost non-overlapping markdown image matches (`![alt](target)` — the plain
link form `[label](target)` is not extracted) that do not start with "http",
followed by the wiki link inner texts whose extension (last dot-separated
segment, lowercased) is among the allowed extensions; duplicates are kept and
the function is pure. -/
theorem c8_amended (allowedExtensions content p : Str) :
    (p ∈ extractAttachmentPaths allowedExtensions content ↔
      ((p ∈ scanMdImage content ∧ "http".data.isPrefixOf p = false) ∨
       (p ∈ scanWiki content ∧ isAttachmentPath allowedExtensions p = true))) ∧
    List.count p (extractAttachmentPaths allowedExtensions content) =
      List.count p ((scanMdImage content).filter (fun q => !("http".data.isPrefixOf q))) +
      List.count p ((scanWiki content).filter (isAttachmentPath allowedExtensions)) := by
  constructor
  · simp [extractAttachmentPaths, List.mem_append, List.mem_filter]
  · simp [extractAttachmentPaths, List.count_append]

/-- Steps of a single upload attempt in `uploadAndReplaceAttachment` (source
lines 230-287), in the order the code performs them: read the attachment
bytes, send the put-object command, rewrite the references, delete the local
file.  Any of them may throw. -/
inductive UploadStep where
  | readFile
  | putRemote
  | rewriteRefs
  | deleteLocal
deriving DecidableEq, Repr

/-- Outcome of one attempt: either every step succeeds, or the first failing
step throws an error with the given message. -/
inductive AttemptOutcome where
  | ok : AttemptOutcome
  | failAt : UploadStep → Str → AttemptOutcome
deriving DecidableEq, Repr

/-- Observable events of `uploadAndReplaceAttachment`, tagged with the
attempt number where applicable. -/
inductive UploadEvent where
  | noticeRetrying (attempt : Nat)
  | putRemote (attempt : Nat)
  | rewroteReferences (attempt : Nat)
  | deletedLocalFile (attempt : Nat)
  | slept (ms : Nat)
  | noticeFailedAllRetries (maxRetries : Nat) (msg : Str)
deriving DecidableEq, Repr

/-- The retry notice shown at the start of attempts after the first (source
lines 252-257). -/
def retryNotice (k : Nat) : List UploadEvent :=
  if 1 < k then [UploadEvent.noticeRetrying k] else []

/-- Events produced by attempt `k` with the given outcome, in source order:
read (no event), retry notice, put, rewrite, local delete; a throwing step
produces no event of its own and ends the attempt. -/
def attemptEvents (k : Nat) : AttemptOutcome → List UploadEvent
  | .ok => retryNotice k ++
      [.putRemote k, .rewroteReferences k, .deletedLocalFile k]
  | .failAt .readFile _ => []
  | .failAt .putRemote _ => retryNotice k
  | .failAt .rewriteRefs _ => retryNotice k ++ [.putRemote k]
  | .failAt .deleteLocal _ => retryNotice k ++ [.putRemote k, .rewroteReferences k]

/-- The `'Unknown error'` fallback of the final failure notice (source line
292). -/
def unknownErrorMsg : Str := "Unknown error".data

/-- The retry loop of `uploadAndReplaceAttachment` (source lines 226-295):
`remaining` counts the attempts still available, `k` is the current attempt
number and `lastErr` the last recorded error.  When the attempts are
exhausted the failure notice is shown with the maximum retry count and the
last error's message, and the last error value is thrown (`none` models the
null value thrown when the loop never ran).  On a failed attempt with
attempts remaining, the code sleeps `1000 * attemptNumber` milliseconds. -/
def runAttempts (att : Nat → AttemptOutcome) (maxRetries : Nat) :
    Nat → Nat → Option Str → Except (Option Str) Unit × List UploadEvent
  | 0, _, lastErr =>
      (.error lastErr,
        [.noticeFailedAllRetries maxRetries (lastErr.getD unknownErrorMsg)])
  | remaining + 1, k, lastErr =>
      match att k with
      | .ok => (.ok (), attemptEvents k .ok)
      | .failAt s m =>
          let rest := runAttempts att maxRetries remaining (k + 1) (some m)
          (rest.1, attemptEvents k (.failAt s m) ++
            (if k < maxRetries then [.slept (1000 * k)] else []) ++ rest.2)

/-- The method `uploadAndReplaceAttachment` for one attachment, with the outcomes of the
fallible steps of each attempt supplied by `att`. -/
def uploadAndReplaceAttachment (att : Nat → AttemptOutcome) (maxRetries : Nat) :
    Except (Option Str) Unit × List UploadEvent :=
  runAttempts att maxRetries maxRetries 1 none

/-- Recogniser for local-delete events. -/
def isDeleteEvent : UploadEvent → Bool
  | .deletedLocalFile _ => true
  | _ => false

theorem mem_retryNotice {e : UploadEvent} {k : Nat} (h : e ∈ retryNotice k) :
    e = .noticeRetrying k := by
  unfold retryNotice at h
  split at h
  · simpa using h
  · simp at h

theorem attemptEvents_deleted {k j : Nat} {o : AttemptOutcome}
    (h : UploadEvent.deletedLocalFile j ∈ attemptEvents k o) : j = k ∧ o = .ok := by
  cases o with
  | ok =>
    simp [attemptEvents] at h
    rcases h with h' | h'
    · exact absurd (mem_retryNotice h') (by simp)
    · exact ⟨h', rfl⟩
  | failAt s m =>
    cases s <;> simp [attemptEvents] at h <;>
      exact absurd (mem_retryNotice h) (by simp)

theorem attemptEvents_tag {k j : Nat} {o : AttemptOutcome}
    (h : UploadEvent.putRemote j ∈ attemptEvents k o ∨
         UploadEvent.noticeRetrying j ∈ attemptEvents k o ∨
         UploadEvent.rewroteReferences j ∈ attemptEvents k o ∨
         UploadEvent.deletedLocalFile j ∈ attemptEvents k o) : j = k := by
  have hmem : ∀ e ∈ attemptEvents k o,
      e = UploadEvent.noticeRetrying k ∨ e = .putRemote k ∨
      e = .rewroteReferences k ∨ e = .deletedLocalFile k := by
    intro e he
    cases o with
    | ok =>
      simp [attemptEvents] at he
      rcases he with he | he | he | he
      · exact Or.inl (mem_retryNotice he)
      · simp [he]
      · simp [he]
      · simp [he]
    | failAt s m =>
      cases s with
      | readFile => simp [attemptEvents] at he
      | putRemote =>
        simp [attemptEvents] at he
        exact Or.inl (mem_retryNotice he)
      | rewriteRefs =>
        simp [attemptEvents] at he
        rcases he with he | he
        · exact Or.inl (mem_retryNotice he)
        · simp [he]
      | deleteLocal =>
        simp [attemptEvents] at he
        rcases he with he | he | he
        · exact Or.inl (mem_retryNotice he)
        · simp [he]
        · simp [he]
  rcases h with h | h | h | h <;>
    · rcases hmem _ h with h' | h' | h' | h' <;> simp at h' <;> omega

theorem attemptEvents_no_slept {k ms : Nat} {o : AttemptOutcome} :
    UploadEvent.slept ms ∉ attemptEvents k o := by
  intro h
  cases o with
  | ok =>
    simp [attemptEvents] at h
    exact absurd (mem_retryNotice h) (by simp)
  | failAt s m =>
    cases s <;> simp [attemptEvents] at h <;>
      exact absurd (mem_retryNotice h) (by simp)

theorem attemptEvents_no_failNotice {k R' : Nat} {m' : Str} {o : AttemptOutcome} :
    UploadEvent.noticeFailedAllRetries R' m' ∉ attemptEvents k o := by
  intro h
  cases o with
  | ok =>
    simp [attemptEvents] at h
    exact absurd (mem_retryNotice h) (by simp)
  | failAt s m =>
    cases s <;> simp [attemptEvents] at h <;>
      exact absurd (mem_retryNotice h) (by simp)

theorem countP_retryNotice (k : Nat) : List.countP isDeleteEvent (retryNotice k) = 0 := by
  unfold retryNotice
  split <;> simp [isDeleteEvent]

theorem countP_attemptEvents (k : Nat) (o : AttemptOutcome) :
    List.countP isDeleteEvent (attemptEvents k o)
      = if o = .ok then 1 else 0 := by
  cases o with
  | ok => simp [attemptEvents, List.countP_append, countP_retryNotice, isDeleteEvent]
  | failAt s m =>
    cases s <;>
      simp [attemptEvents, List.countP_append, countP_retryNotice, isDeleteEvent]

theorem runAttempts_ok_eq (att : Nat → AttemptOutcome) (R n k : Nat) (lastErr : Option Str)
    (hatt : att k = .ok) :
    runAttempts att R (n + 1) k lastErr = (.ok (), attemptEvents k .ok) := by
  simp [runAttempts, hatt]

theorem runAttempts_fail_fst (att : Nat → AttemptOutcome) (R n k : Nat) (lastErr : Option Str)
    {s : UploadStep} {m : Str} (hatt : att k = .failAt s m) :
    (runAttempts att R (n + 1) k lastErr).1 = (runAttempts att R n (k + 1) (some m)).1 := by
  simp [runAttempts, hatt]

theorem runAttempts_fail_mem (att : Nat → AttemptOutcome) (R n k : Nat) (lastErr : Option Str)
    {s : UploadStep} {m : Str} (hatt : att k = .failAt s m) (e : UploadEvent) :
    (e ∈ (runAttempts att R (n + 1) k lastErr).2 ↔
      (e ∈ attemptEvents k (.failAt s m) ∨ (k < R ∧ e = .slept (1000 * k)) ∨
       e ∈ (runAttempts att R n (k + 1) (some m)).2)) := by
  by_cases hkR : k < R <;>
    simp [runAttempts, hatt, hkR, List.mem_append] <;> tauto

theorem runAttempts_deleted (att : Nat → AttemptOutcome) (R : Nat) :
    ∀ (remaining k : Nat) (lastErr : Option Str) (j : Nat),
      UploadEvent.deletedLocalFile j ∈ (runAttempts att R remaining k lastErr).2 →
      att j = .ok ∧ k ≤ j ∧ j < k + remaining ∧
      UploadEvent.putRemote j ∈ (runAttempts att R remaining k lastErr).2 ∧
      UploadEvent.rewroteReferences j ∈ (runAttempts att R remaining k lastErr).2 := by
  intro remaining
  induction remaining with
  | zero =>
    intro k lastErr j hj
    simp [runAttempts] at hj
  | succ n ih =>
    intro k lastErr j hj
    cases hatt : att k with
    | ok =>
      rw [runAttempts_ok_eq att R n k lastErr hatt] at hj ⊢
      simp only at hj
      obtain ⟨hjk, -⟩ := attemptEvents_deleted hj
      subst hjk
      refine ⟨hatt, le_refl j, by omega, ?_, ?_⟩
      · simp [attemptEvents]
      · simp [attemptEvents]
    | failAt s m =>
      rcases (runAttempts_fail_mem att R n k lastErr hatt _).mp hj with h' | h' | h'
      · exact absurd (attemptEvents_deleted h').2 (by simp)
      · exact absurd h'.2 (by simp)
      · obtain ⟨h1, h2, h3, h4, h5⟩ := ih (k + 1) (some m) j h'
        refine ⟨h1, by omega, by omega, ?_, ?_⟩
        · exact (runAttempts_fail_mem att R n k lastErr hatt _).mpr (Or.inr (Or.inr h4))
        · exact (runAttempts_fail_mem att R n k lastErr hatt _).mpr (Or.inr (Or.inr h5))

theorem runAttempts_tag_bound (att : Nat → AttemptOutcome) (R : Nat) :
    ∀ (remaining k : Nat) (lastErr : Option Str) (j : Nat),
      (UploadEvent.putRemote j ∈ (runAttempts att R remaining k lastErr).2 ∨
       UploadEvent.noticeRetrying j ∈ (runAttempts att R remaining k lastErr).2 ∨
       UploadEvent.rewroteReferences j ∈ (runAttempts att R remaining k lastErr).2 ∨
       UploadEvent.deletedLocalFile j ∈ (runAttempts att R remaining k lastErr).2) →
      k ≤ j ∧ j < k + remaining := by
  intro remaining
  induction remaining with
  | zero =>
    intro k lastErr j hj
    rcases hj with hj | hj | hj | hj <;> simp [runAttempts] at hj
  | succ n ih =>
    intro k lastErr j hj
    cases hatt : att k with
    | ok =>
      rw [runAttempts_ok_eq att R n k lastErr hatt] at hj
      simp only at hj
      have := attemptEvents_tag hj
      omega
    | failAt s m =>
      rcases hj with hj | hj | hj | hj
      · rcases (runAttempts_fail_mem att R n k lastErr hatt _).mp hj with h' | h' | h'
        · have := attemptEvents_tag (Or.inl h'); omega
        · exact absurd h'.2 (by simp)
        · have := ih (k + 1) (some m) j (Or.inl h'); omega
      · rcases (runAttempts_fail_mem att R n k lastErr hatt _).mp hj with h' | h' | h'
        · have := attemptEvents_tag (Or.inr (Or.inl h')); omega
        · exact absurd h'.2 (by simp)
        · have := ih (k + 1) (some m) j (Or.inr (Or.inl h')); omega
      · rcases (runAttempts_fail_mem att R n k lastErr hatt _).mp hj with h' | h' | h'
        · have := attemptEvents_tag (Or.inr (Or.inr (Or.inl h'))); omega
        · exact absurd h'.2 (by simp)
        · have := ih (k + 1) (some m) j (Or.inr (Or.inr (Or.inl h'))); omega
      · rcases (runAttempts_fail_mem att R n k lastErr hatt _).mp hj with h' | h' | h'
        · have := attemptEvents_tag (Or.inr (Or.inr (Or.inr h'))); omega
        · exact absurd h'.2 (by simp)
        · have := ih (k + 1) (some m) j (Or.inr (Or.inr (Or.inr h'))); omega

theorem runAttempts_allFail (att : Nat → AttemptOutcome) (R : Nat) :
    ∀ (remaining k : Nat) (lastErr : Option Str),
      1 ≤ remaining →
      (∀ j, k ≤ j → j < k + remaining → att j ≠ .ok) →
      ∃ s m, att (k + remaining - 1) = .failAt s m ∧
        (runAttempts att R remaining k lastErr).1 = .error (some m) ∧
        UploadEvent.noticeFailedAllRetries R m ∈ (runAttempts att R remaining k lastErr).2 := by
  intro remaining
  induction remaining with
  | zero =>
    intro k lastErr h
    exact absurd h (by omega)
  | succ n ih =>
    intro k lastErr h1 hf
    have hk : att k ≠ .ok := hf k (le_refl k) (by omega)
    cases hatt : att k with
    | ok => exact absurd hatt hk
    | failAt s m =>
      cases n with
      | zero =>
        refine ⟨s, m, by simpa using hatt, ?_, ?_⟩
        · simp [runAttempts, hatt]
        · simp [runAttempts, hatt, List.mem_append]
      | succ n' =>
        obtain ⟨s', m', h1', h2', h3'⟩ := ih (k + 1) (some m) (by omega)
          (fun j hj1 hj2 => hf j (by omega) (by omega))
        refine ⟨s', m', ?_, ?_, ?_⟩
        · have heq : k + (n' + 1 + 1) - 1 = k + 1 + (n' + 1) - 1 := by omega
          rw [heq]
          exact h1'
        · rw [runAttempts_fail_fst att R (n' + 1) k lastErr hatt]
          exact h2'
        · exact (runAttempts_fail_mem att R (n' + 1) k lastErr hatt _).mpr
            (Or.inr (Or.inr h3'))

theorem runAttempts_sleep (att : Nat → AttemptOutcome) (R : Nat) :
    ∀ (remaining k : Nat) (lastErr : Option Str) (j : Nat),
      k ≤ j → j < k + remaining → j < R →
      (∀ i, k ≤ i → i ≤ j → att i ≠ .ok) →
      UploadEvent.slept (1000 * j) ∈ (runAttempts att R remaining k lastErr).2 := by
  intro remaining
  induction remaining with
  | zero =>
    intro k lastErr j h1 h2
    exact absurd h2 (by omega)
  | succ n ih =>
    intro k lastErr j h1 h2 h3 hf
    have hk : att k ≠ .ok := hf k (le_refl k) h1
    cases hatt : att k with
    | ok => exact absurd hatt hk
    | failAt s m =>
      rcases Nat.eq_or_lt_of_le h1 with heq | hlt
      · subst heq
        exact (runAttempts_fail_mem att R n k lastErr hatt _).mpr
          (Or.inr (Or.inl ⟨h3, rfl⟩))
      · exact (runAttempts_fail_mem att R n k lastErr hatt _).mpr
          (Or.inr (Or.inr (ih (k + 1) (some m) j hlt (by omega) h3
            (fun i hi1 hi2 => hf i (by omega) hi2))))

theorem runAttempts_success (att : Nat → AttemptOutcome) (R : Nat) :
    ∀ (remaining k : Nat) (lastErr : Option Str) (j : Nat),
      k ≤ j → j < k + remaining → att j = .ok →
      (∀ i, k ≤ i → i < j → att i ≠ .ok) →
      (runAttempts att R remaining k lastErr).1 = .ok () ∧
      List.countP isDeleteEvent (runAttempts att R remaining k lastErr).2 = 1 ∧
      UploadEvent.deletedLocalFile j ∈ (runAttempts att R remaining k lastErr).2 ∧
      UploadEvent.rewroteReferences j ∈ (runAttempts att R remaining k lastErr).2 ∧
      (∀ R' m', UploadEvent.noticeFailedAllRetries R' m' ∉
        (runAttempts att R remaining k lastErr).2) := by
  intro remaining
  induction remaining with
  | zero =>
    intro k lastErr j h1 h2
    exact absurd h2 (by omega)
  | succ n ih =>
    intro k lastErr j h1 h2 hok hmin
    rcases Nat.eq_or_lt_of_le h1 with heq | hlt
    · subst heq
      rw [runAttempts_ok_eq _ _ _ _ _ hok]
      refine ⟨rfl, ?_, ?_, ?_, ?_⟩
      · simpa using countP_attemptEvents _ .ok
      · simp [attemptEvents]
      · simp [attemptEvents]
      · intro R' m' hmem
        simp only at hmem
        exact attemptEvents_no_failNotice hmem
    · have hk : att k ≠ .ok := hmin k (le_refl k) hlt
      cases hatt : att k with
      | ok => exact absurd hatt hk
      | failAt s m =>
        obtain ⟨ih1, ih2, ih3, ih4, ih5⟩ := ih (k + 1) (some m) j hlt (by omega) hok
          (fun i hi1 hi2 => hmin i (by omega) hi2)
        refine ⟨?_, ?_, ?_, ?_, ?_⟩
        · rw [runAttempts_fail_fst att R n k lastErr hatt]
          exact ih1
        · have hsplit : (runAttempts att R (n + 1) k lastErr).2 =
              (attemptEvents k (.failAt s m) ++
                (if k < R then [UploadEvent.slept (1000 * k)] else [])) ++
              (runAttempts att R n (k + 1) (some m)).2 := by
            simp [runAttempts, hatt]
          rw [hsplit, List.countP_append, List.countP_append]
          have hc1 : List.countP isDeleteEvent (attemptEvents k (.failAt s m)) = 0 := by
            rw [countP_attemptEvents]
            simp
          have hc2 : List.countP isDeleteEvent
              (if k < R then [UploadEvent.slept (1000 * k)] else []) = 0 := by
            split <;> simp [isDeleteEvent]
          omega
        · exact (runAttempts_fail_mem att R n k lastErr hatt _).mpr (Or.inr (Or.inr ih3))
        · exact (runAttempts_fail_mem att R n k lastErr hatt _).mpr (Or.inr (Or.inr ih4))
        · intro R' m' hmem
          rcases (runAttempts_fail_mem att R n k lastErr hatt _).mp hmem with h' | h' | h'
          · exact attemptEvents_no_failNotice h'
          · exact absurd h'.2 (by simp)
          · exact ih5 R' m' h'

/-- C2: Upload ordering and atomicity: the local attachment file is deleted
only in an attempt whose put-object and reference rewrite both succeeded
(with the delete ordered after them); and if every attempt fails — the
failing step being the read, the upload, the rewrite or the delete itself —
the operation propagates the last attempt's error and the local file is
never deleted. -/
theorem c2_upload_ordering_and_atomicity (att : Nat → AttemptOutcome) (R : Nat) (hR : 1 ≤ R) :
    (∀ j, UploadEvent.deletedLocalFile j ∈ (uploadAndReplaceAttachment att R).2 →
      att j = .ok ∧
      UploadEvent.putRemote j ∈ (uploadAndReplaceAttachment att R).2 ∧
      UploadEvent.rewroteReferences j ∈ (uploadAndReplaceAttachment att R).2) ∧
    ((∀ j, 1 ≤ j → j ≤ R → att j ≠ .ok) →
      (∀ j, UploadEvent.deletedLocalFile j ∉ (uploadAndReplaceAttachment att R).2) ∧
      ∃ s m, att R = .failAt s m ∧
        (uploadAndReplaceAttachment att R).1 = .error (some m)) := by
  constructor
  · intro j hj
    obtain ⟨h1, -, -, h4, h5⟩ := runAttempts_deleted att R R 1 none j hj
    exact ⟨h1, h4, h5⟩
  · intro hf
    constructor
    · intro j hj
      obtain ⟨h1, h2, h3, -, -⟩ := runAttempts_deleted att R R 1 none j hj
      exact hf j h2 (by omega) h1
    · obtain ⟨s, m, h1, h2, -⟩ := runAttempts_allFail att R R 1 none hR
        (fun j hj1 hj2 => hf j hj1 (by omega))
      have heq : 1 + R - 1 = R := by omega
      rw [heq] at h1
      exact ⟨s, m, h1, h2⟩

/-- Witness for C2: with every attempt failing at the put step, the run
never deletes the local file and ends with the last error propagated. -/
theorem c2_witness :
    (∀ j, UploadEvent.deletedLocalFile j ∉
      (uploadAndReplaceAttachment (fun _ => .failAt .putRemote "boom".data) 2).2) ∧
    (uploadAndReplaceAttachment (fun _ => .failAt .putRemote "boom".data) 2).1
      = .error (some "boom".data) := by
  have h := (c2_upload_ordering_and_atomicity
      (fun _ => .failAt .putRemote "boom".data) 2 (by omega)).2
    (fun j h1 h2 => by simp)
  refine ⟨h.1, ?_⟩
  obtain ⟨s, m, hm, hr⟩ := h.2
  injection hm with hs hm'
  rw [← hm'] at hr
  exact hr

/-- C3: Retry algorithm: at most `R` attempts happen; a failing attempt
`k < R` (reached because attempts `1..k` all failed) is followed by a
`1000 * k` millisecond wait; if the first succeeding attempt is `k ≤ R`, the
result is success, exactly one local delete (one rewrite-and-delete) occurs
and no failure notice is shown; after `R` failed attempts the failure notice
carrying the attempt count and the last error's message is shown and the
error propagates. -/
theorem c3_retry_algorithm (att : Nat → AttemptOutcome) (R : Nat) (hR : 1 ≤ R) :
    (∀ j, R < j →
      UploadEvent.putRemote j ∉ (uploadAndReplaceAttachment att R).2 ∧
      UploadEvent.noticeRetrying j ∉ (uploadAndReplaceAttachment att R).2 ∧
      UploadEvent.rewroteReferences j ∉ (uploadAndReplaceAttachment att R).2 ∧
      UploadEvent.deletedLocalFile j ∉ (uploadAndReplaceAttachment att R).2) ∧
    (∀ j, 1 ≤ j → j < R → (∀ i, 1 ≤ i → i ≤ j → att i ≠ .ok) →
      UploadEvent.slept (1000 * j) ∈ (uploadAndReplaceAttachment att R).2) ∧
    (∀ j, 1 ≤ j → j ≤ R → att j = .ok → (∀ i, 1 ≤ i → i < j → att i ≠ .ok) →
      (uploadAndReplaceAttachment att R).1 = .ok () ∧
      List.countP isDeleteEvent (uploadAndReplaceAttachment att R).2 = 1 ∧
      UploadEvent.deletedLocalFile j ∈ (uploadAndReplaceAttachment att R).2 ∧
      UploadEvent.rewroteReferences j ∈ (uploadAndReplaceAttachment att R).2 ∧
      (∀ R' m', UploadEvent.noticeFailedAllRetries R' m' ∉
        (uploadAndReplaceAttachment att R).2)) ∧
    ((∀ j, 1 ≤ j → j ≤ R → att j ≠ .ok) →
      ∃ s m, att R = .failAt s m ∧
        UploadEvent.noticeFailedAllRetries R m ∈ (uploadAndReplaceAttachment att R).2 ∧
        (uploadAndReplaceAttachment att R).1 = .error (some m)) := by
  refine ⟨?_, ?_, ?_, ?_⟩
  · intro j hj
    refine ⟨?_, ?_, ?_, ?_⟩ <;> intro hmem
    · have := runAttempts_tag_bound att R R 1 none j (Or.inl hmem); omega
    · have := runAttempts_tag_bound att R R 1 none j (Or.inr (Or.inl hmem)); omega
    · have := runAttempts_tag_bound att R R 1 none j (Or.inr (Or.inr (Or.inl hmem))); omega
    · have := runAttempts_tag_bound att R R 1 none j (Or.inr (Or.inr (Or.inr hmem))); omega
  · intro j h1 h2 hf
    exact runAttempts_sleep att R R 1 none j h1 (by omega) h2 hf
  · intro j h1 h2 hok hmin
    exact runAttempts_success att R R 1 none j h1 (by omega) hok hmin
  · intro hf
    obtain ⟨s, m, ha, hr, hn⟩ := runAttempts_allFail att R R 1 none hR
      (fun j hj1 hj2 => hf j hj1 (by omega))
    have heq : 1 + R - 1 = R := by omega
    rw [heq] at ha
    exact ⟨s, m, ha, hn, hr⟩

/-- Attempt outcomes used by the concrete retry evaluations: failures at the
put step on attempts 1 and 2, success on attempt 3. -/
def egAttempts : Nat → AttemptOutcome :=
  fun k => if k = 3 then .ok else .failAt .putRemote "e".data

/-- Witness for C3: with `retryCount = 3` and success on attempt 3, the run
sleeps 1000 ms and 2000 ms, succeeds, performs exactly one local delete, and
shows no failure notice; no event of an attempt beyond 3 exists. -/
theorem c3_witness :
    UploadEvent.slept 1000 ∈ (uploadAndReplaceAttachment egAttempts 3).2 ∧
    UploadEvent.slept 2000 ∈ (uploadAndReplaceAttachment egAttempts 3).2 ∧
    (uploadAndReplaceAttachment egAttempts 3).1 = .ok () ∧
    List.countP isDeleteEvent (uploadAndReplaceAttachment egAttempts 3).2 = 1 ∧
    UploadEvent.deletedLocalFile 3 ∈ (uploadAndReplaceAttachment egAttempts 3).2 ∧
    (∀ R' m', UploadEvent.noticeFailedAllRetries R' m' ∉
      (uploadAndReplaceAttachment egAttempts 3).2) ∧
    UploadEvent.putRemote 4 ∉ (uploadAndReplaceAttachment egAttempts 3).2 := by
  have hmain := c3_retry_algorithm egAttempts 3 (by omega)
  have hnotok : ∀ i, 1 ≤ i → i < 3 → egAttempts i ≠ .ok := by
    intro i h1 h2
    interval_cases i <;> simp [egAttempts]
  have hsucc := hmain.2.2.1 3 (by omega) (by omega) (by simp [egAttempts]) hnotok
  refine ⟨?_, ?_, hsucc.1, hsucc.2.1, hsucc.2.2.1, hsucc.2.2.2.2, ?_⟩
  · have := hmain.2.1 1 (by omega) (by omega) (fun i h1 h2 => by
      interval_cases i <;> simp [egAttempts])
    simpa using this
  · have := hmain.2.1 2 (by omega) (by omega) (fun i h1 h2 => by
      interval_cases i <;> simp [egAttempts])
    simpa using this
  · exact (hmain.1 4 (by omega)).1

/-- The method `uploadAllAttachments` (source lines 155-177): the batch loop awaits each
upload with no try/catch, so the first item whose retries exhaust rejects
the whole batch; the returned number counts the items on which an upload was
invoked.  The closing notice carries no success/failure counts and is only
reached when every item succeeded. -/
def uploadAllAttachments (R : Nat) : List (Nat → AttemptOutcome) →
    Except (Option Str) Unit × Nat
  | [] => (.ok (), 0)
  | a :: rest =>
    match (uploadAndReplaceAttachment a R).1 with
    | .ok _ =>
      let r := uploadAllAttachments R rest
      (r.1, r.2 + 1)
    | .error e => (.error e, 1)

/-- The per-item loop of `uploadCurrentFileAttachments` (source lines
204-214): a path that does not resolve to a vault file is skipped; a
resolved item is uploaded inside try/catch and tallied as a success or a
failure. -/
def uploadCurrentLoop (R : Nat) : List (Option (Nat → AttemptOutcome)) → Nat × Nat
  | [] => (0, 0)
  | none :: rest => uploadCurrentLoop R rest
  | some a :: rest =>
    let r := uploadCurrentLoop R rest
    match (uploadAndReplaceAttachment a R).1 with
    | .ok _ => (r.1 + 1, r.2)
    | .error _ => (r.1, r.2 + 1)

/-- The closing notice of `uploadCurrentFileAttachments` (source lines
216-223). -/
inductive UploadNotice where
  | uploadSuccess (count : Nat)
  | uploadPartialSuccess (success failed : Nat)
deriving DecidableEq, Repr

/-- Notice selection: all-success message or partial-success tally. -/
def uploadCurrentNotice (s f : Nat) : UploadNotice :=
  if f = 0 then .uploadSuccess s else .uploadPartialSuccess s f

/-- The method `uploadCurrentFileAttachments` (source lines 179-224): extract the
attachment paths of the active document, resolve each path in the vault,
upload the resolved ones with per-item isolation, and report the tally. -/
def uploadCurrentFileAttachments (R : Nat) (allowedExtensions content : Str)
    (resolve : Str → Option (Nat → AttemptOutcome)) : (Nat × Nat) × UploadNotice :=
  let counts :=
    uploadCurrentLoop R ((extractAttachmentPaths allowedExtensions content).map resolve)
  (counts, uploadCurrentNotice counts.1 counts.2)

/-- Attempt outcomes that always fail at the put step. -/
def egFailAttempt : Nat → AttemptOutcome := fun _ => .failAt .putRemote "boom".data

/-- Attempt outcomes that always succeed. -/
def egOkAttempt : Nat → AttemptOutcome := fun _ => .ok

/-- C4 counterexample: in `uploadAllAttachments` a batch of a failing item
followed by a succeeding item stops after the first item (only one upload is
invoked, the second item is skipped) and propagates the error instead of
reporting a tally — the claim's per-item isolation fails for this entry
point. -/
theorem c4_counterexample :
    (uploadAllAttachments 1 [egFailAttempt, egOkAttempt]).2 = 1 ∧
    (uploadAllAttachments 1 [egFailAttempt, egOkAttempt]).1
      = .error (some "boom".data) := ⟨rfl, rfl⟩

/-- C4 (amended): `uploadCurrentFileAttachments` isolates failures per item —
every resolved item is attempted and tallied, so success + failed equals the
number of resolved items — and reports the tally; `uploadAllAttachments`
does not: an item whose retries exhaust stops the batch after that item,
propagating its error, and no tally is reported. -/
theorem c4_batch_isolation_amended :
    (∀ (R : Nat) (items : List (Option (Nat → AttemptOutcome))),
      (uploadCurrentLoop R items).1 + (uploadCurrentLoop R items).2
        = (items.filterMap id).length) ∧
    (∀ (R : Nat) (a : Nat → AttemptOutcome) (rest : List (Nat → AttemptOutcome))
        (e : Option Str),
      (uploadAndReplaceAttachment a R).1 = .error e →
      (uploadAllAttachments R (a :: rest)).1 = .error e ∧
      (uploadAllAttachments R (a :: rest)).2 = 1) := by
  constructor
  · intro R items
    induction items with
    | nil => simp [uploadCurrentLoop]
    | cons it rest ih =>
      cases it with
      | none => simpa [uploadCurrentLoop] using ih
      | some a =>
        cases hres : (uploadAndReplaceAttachment a R).1 <;>
          simp [uploadCurrentLoop, hres, List.filterMap_cons] <;> omega
  · intro R a rest e he
    constructor <;> simp [uploadAllAttachments, he]

/-- Witness for C4 (amended), at a concrete failing batch. -/
theorem c4_witness :
    (uploadAllAttachments 2 [egFailAttempt, egOkAttempt]).1
      = .error (some "boom".data) ∧
    (uploadAllAttachments 2 [egFailAttempt, egOkAttempt]).2 = 1 :=
  c4_batch_isolation_amended.2 2 egFailAttempt [egOkAttempt] (some "boom".data) rfl

theorem filterMap_length_lt {α β : Type} (f : α → Option β) (l : List α)
    (h : ∃ p ∈ l, f p = none) : (l.filterMap f).length < l.length := by
  induction l with
  | nil => simp at h
  | cons a t ih =>
    rcases h with ⟨p, hp, hf⟩
    rcases List.mem_cons.mp hp with heq | hp'
    · subst heq
      rw [List.filterMap_cons, hf]
      have hle : (t.filterMap f).length ≤ t.length := List.length_filterMap_le f t
      simp
      omega
    · cases hfa : f a <;> rw [List.filterMap_cons, hfa]
      · have := ih ⟨p, hp', hf⟩
        simp
        omega
      · have := ih ⟨p, hp', hf⟩
        simp
        omega

/-- C10: in `uploadCurrentFileAttachments` every extracted attachment path
that does not resolve to an existing vault file is silently skipped — it is
counted neither as a success nor as a failure — so the reported
success + failed total equals the number of resolved paths and is strictly
smaller than the number of extracted paths whenever some path fails to
resolve. -/
theorem c10_unresolved_paths_skipped (R : Nat) (allowedExtensions content : Str)
    (resolve : Str → Option (Nat → AttemptOutcome)) :
    ((uploadCurrentFileAttachments R allowedExtensions content resolve).1.1 +
     (uploadCurrentFileAttachments R allowedExtensions content resolve).1.2
      = ((extractAttachmentPaths allowedExtensions content).filterMap resolve).length) ∧
    ((∃ p ∈ extractAttachmentPaths allowedExtensions content, resolve p = none) →
      (uploadCurrentFileAttachments R allowedExtensions content resolve).1.1 +
      (uploadCurrentFileAttachments R allowedExtensions content resolve).1.2
        < (extractAttachmentPaths allowedExtensions content).length) := by
  have hcounts :
      (uploadCurrentFileAttachments R allowedExtensions content resolve).1.1 +
      (uploadCurrentFileAttachments R allowedExtensions content resolve).1.2
        = ((extractAttachmentPaths allowedExtensions content).filterMap resolve).length := by
    have h := c4_batch_isolation_amended.1 R
      ((extractAttachmentPaths allowedExtensions content).map resolve)
    have hmap : (((extractAttachmentPaths allowedExtensions content).map resolve).filterMap id)
        = (extractAttachmentPaths allowedExtensions content).filterMap resolve := by
      rw [List.filterMap_map]
      simp
    rw [hmap] at h
    exact h
  refine ⟨hcounts, ?_⟩
  intro hnone
  rw [hcounts]
  exact filterMap_length_lt resolve _ hnone

/-- Resolution map used by the concrete batch evaluations: only `x.png`
exists in the vault. -/
def egResolve : Str → Option (Nat → AttemptOutcome) :=
  fun p => if p = "x.png".data then some egOkAttempt else none

/-- Witness for C10: of two extracted paths only one resolves, so the tally
total is 1 while two paths were extracted. -/
theorem c10_witness :
    (uploadCurrentFileAttachments 3 "png".data "![a](x.png) ![b](y.png)".data egResolve).1.1 +
    (uploadCurrentFileAttachments 3 "png".data "![a](x.png) ![b](y.png)".data egResolve).1.2
      < (extractAttachmentPaths "png".data "![a](x.png) ![b](y.png)".data).length :=
  (c10_unresolved_paths_skipped 3 "png".data "![a](x.png) ![b](y.png)".data egResolve).2
    ⟨"y.png".data, by decide, rfl⟩

/-- The terminal report of a cleanup run: the values `startCleanup` passes to
`showResults` (source line 1055), which displays the deleted/failed counts
and a cancelled-or-completed status line. -/
structure CleanupReport where
  processed : Nat
  deleted : Nat
  failed : Nat
  cancelled : Bool
deriving DecidableEq, Repr

/-- The execute loop of `CleanupModal.startCleanup` (source lines 1022-1053):
iterate over the unused files, checking the cooperative cancellation flag
before each object; a processed object is moved to trash or deleted (its
outcome given by `success`), and the counters advance.  The flag is modelled
as raised exactly when `cancelAfter` objects have been processed.  Returns
the final counters together with the list of objects actually operated on,
in order. -/
def cleanupGo (success : Str → Bool) (cancelAfter : Nat) :
    List Str → Nat → Nat → Nat → Nat × Nat × Nat × List Str
  | [], p, d, f => (p, d, f, [])
  | file :: rest, p, d, f =>
    if cancelAfter ≤ p then (p, d, f, [])
    else
      let r := cleanupGo success cancelAfter rest (p + 1)
        (if success file then d + 1 else d) (if success file then f else f + 1)
      (r.1, r.2.1, r.2.2.1, file :: r.2.2.2)

/-- The execute phase of `startCleanup` followed by the `showResults` call:
the report carries the counters and the cancellation flag as read after the
loop. -/
def startCleanupExecute (success : Str → Bool) (cancelAfter : Nat)
    (unusedFiles : List Str) : CleanupReport × List Str :=
  let r := cleanupGo success cancelAfter unusedFiles 0 0 0
  ({ processed := r.1, deleted := r.2.1, failed := r.2.2.1,
     cancelled := decide (cancelAfter ≤ r.1) }, r.2.2.2)

theorem cleanupGo_cancel (success : Str → Bool) (N : Nat) :
    ∀ (files : List Str) (p d f : Nat),
      p ≤ N → N - p ≤ files.length →
      (cleanupGo success N files p d f).1 = N ∧
      (cleanupGo success N files p d f).2.2.2 = files.take (N - p) := by
  intro files
  induction files with
  | nil =>
    intro p d f h1 h2
    simp at h2
    constructor
    · simp [cleanupGo]; omega
    · simp [cleanupGo]
  | cons file rest ih =>
    intro p d f h1 h2
    by_cases hc : N ≤ p
    · have hpN : p = N := by omega
      subst hpN
      constructor
      · simp [cleanupGo]
      · simp [cleanupGo]
    · have hlt : p < N := by omega
      obtain ⟨ihp, ihops⟩ := ih (p + 1) (if success file then d + 1 else d)
        (if success file then f else f + 1) (by omega) (by simp at h2 ⊢; omega)
      constructor
      · simp only [cleanupGo, if_neg hc]
        exact ihp
      · simp only [cleanupGo, if_neg hc]
        have htake : (file :: rest).take (N - p) = file :: rest.take (N - p - 1) := by
          have h3 : N - p = (N - p - 1) + 1 := by omega
          have h4 : N - p - 1 + 1 - 1 = N - p - 1 := by omega
          rw [h3, List.take_succ_cons, h4]
        rw [htake]
        simp only [List.cons.injEq, true_and]
        have : N - (p + 1) = N - p - 1 := by omega
        rw [this] at ihops
        exact ihops

/-- C9: Cleanup cancellation: if the cancellation flag is raised after
exactly `N` of the `M` unused objects have been processed (`N ≤ M`), the
execute loop performs no delete or move operation on objects `N+1..M` — the
operated list is exactly the first `N` objects — and the terminal report
states `processed = N` and that the run was cancelled. -/
theorem c9_cleanup_cancellation (success : Str → Bool) (N : Nat)
    (unusedFiles : List Str) (hN : N ≤ unusedFiles.length) :
    (startCleanupExecute success N unusedFiles).1.processed = N ∧
    (startCleanupExecute success N unusedFiles).1.cancelled = true ∧
    (startCleanupExecute success N unusedFiles).2 = unusedFiles.take N := by
  obtain ⟨hp, hops⟩ := cleanupGo_cancel success N unusedFiles 0 0 0 (by omega)
    (by simpa using hN)
  refine ⟨?_, ?_, ?_⟩
  · simpa [startCleanupExecute] using hp
  · simp [startCleanupExecute, hp]
  · simpa [startCleanupExecute] using hops

/-- Witness for C9: cancelling after 2 of 3 objects leaves the third
untouched and reports two processed and a cancelled run. -/
theorem c9_witness :
    (startCleanupExecute (fun _ => true) 2 ["a".data, "b".data, "c".data]).1.processed = 2 ∧
    (startCleanupExecute (fun _ => true) 2 ["a".data, "b".data, "c".data]).1.cancelled = true ∧
    (startCleanupExecute (fun _ => true) 2 ["a".data, "b".data, "c".data]).2
      = ["a".data, "b".data] := by
  have h := c9_cleanup_cancellation (fun _ => true) 2 ["a".data, "b".data, "c".data] (by decide)
  exact ⟨h.1, h.2.1, h.2.2.trans (by decide)⟩

/-- The delimiter class of the raw-URL pattern in `findAllObsidianReferences`
(source line 501): the match is the base URL followed by one or more
characters that are not whitespace, closing parenthesis, closing bracket,
angle bracket, double quote or single quote. -/
def isStopChar (c : Char) : Bool :=
  isJsWs c || c == ')' || c == ']' || c == '>' || c == '<' || c == '"' || c == '\''

/-- Fuelled scanner for the raw-URL pattern: at each position, if the base
URL matches there and is followed by at least one non-delimiter character,
the match is the base URL plus the maximal non-delimiter run and the scan
continues after it; otherwise the scan advances one character.  The fuel is
always at least the length of the string, so it never runs out. -/
def scanRawUrlFuel (base : Str) : Nat → Str → List Str
  | 0, _ => []
  | fuel + 1, s =>
    if s.isEmpty then []
    else if base.isPrefixOf s then
      let after := s.drop base.length
      let run := after.takeWhile (fun ch => !isStopChar ch)
      if run = [] then scanRawUrlFuel base fuel s.tail
      else (base ++ run) :: scanRawUrlFuel base fuel (after.drop run.length)
    else scanRawUrlFuel base fuel s.tail

/-- Raw-URL matches over a whole text. -/
def scanRawUrl (base s : Str) : List Str := scanRawUrlFuel base s.length s

/-- The method `findAllObsidianReferences` (source lines 485-531): run the four patterns
(markdown image, markdown link, wiki link, raw base-URL occurrence) over
every document and, for every match whose text contains the base URL,
recover and collect the S3 key.  Collected as a list; only membership
matters, matching the source's use of a set. -/
def findAllObsidianReferences (baseUrl : Str) (docs : List Str) : List Str :=
  docs.flatMap (fun content =>
    (scanMdImage content ++ scanMdLink content ++ scanWiki content ++
      scanRawUrl baseUrl content).filterMap (extractS3KeyFromUrl baseUrl))

/-- The normalisation phase of `CleanupModal.startCleanup` (source lines
896-936): every collected reference is kept; in path-style mode a leading
`bucketName/` and a leading `folderPath/` are also stripped, otherwise only
a leading `folderPath/`; and every stored key that the reference equals, or
ends with after a slash, is also added. -/
def normalizeReferences (S : S3UploaderSettings) (s3Files refs : List Str) : List Str :=
  refs.flatMap (fun ref =>
    ref ::
    ((if S.usePathStyle then
        (if S.bucketName ≠ [] ∧ (S.bucketName ++ ['/']).isPrefixOf ref then
          [ref.drop (S.bucketName.length + 1)] else []) ++
        (if S.folderPath ≠ [] ∧ (S.folderPath ++ ['/']).isPrefixOf ref then
          [ref.drop (S.folderPath.length + 1)] else [])
      else
        (if S.folderPath ≠ [] ∧ (S.folderPath ++ ['/']).isPrefixOf ref then
          [ref.drop (S.folderPath.length + 1)] else [])) ++
     s3Files.filter (fun f => (('/' :: f).isSuffixOf ref) || ref == f)))

/-- The diff phase of `startCleanup` (source lines 938-951): a stored key is
unused when neither the key itself nor `folderPath/key` is among the
normalised references. -/
def computeUnusedFiles (S : S3UploaderSettings) (s3Files docs : List Str) : List Str :=
  let obsidianReferences := findAllObsidianReferences S.baseUrl docs
  let normalizedReferences := normalizeReferences S s3Files obsidianReferences
  s3Files.filter (fun file =>
    !(normalizedReferences.contains file) &&
    !(normalizedReferences.contains (S.folderPath ++ '/' :: file)))

/-- C1 counterexample: the URL of stored key `a.png` appears verbatim in the
only document, but is immediately followed by a non-delimiter character; the
raw-URL pattern therefore captures `a.pngx`, no reference normalises to the
key, and the reconciler reports the key as unused. -/
theorem c1_counterexample :
    (indexOfSub (computeCloudUrl { egSettings with folderPath := [] } "a.png".data)
      "see https://c/a.pngx".data).isSome = true ∧
    computeUnusedFiles { egSettings with folderPath := [] } ["a.png".data]
      ["see https://c/a.pngx".data] = ["a.png".data] := by decide

theorem takeWhile_append_delim {α : Type} (p : α → Bool) (a b : List α)
    (ha : ∀ c ∈ a, p c = true)
    (hb : b = [] ∨ ∃ c0 r, b = c0 :: r ∧ p c0 = false) :
    (a ++ b).takeWhile p = a := by
  induction a with
  | nil =>
    rcases hb with rfl | ⟨c0, r, rfl, hc0⟩
    · simp
    · simp [List.takeWhile_cons, hc0]
  | cons x t ih =>
    have hx : p x = true := ha x (by simp)
    simp only [List.cons_append, List.takeWhile_cons, hx, if_true, List.cons.injEq, true_and]
    exact ih (fun c hc => ha c (by simp [hc]))

theorem mem_takeWhile_pred {α : Type} (p : α → Bool) (l : List α) :
    ∀ x ∈ l.takeWhile p, p x = true := by
  induction l with
  | nil => simp
  | cons a t ih =>
    intro x hx
    by_cases ha : p a = true
    · rw [List.takeWhile_cons, if_pos ha] at hx
      rcases List.mem_cons.mp hx with rfl | hx'
      · exact ha
      · exact ih x hx'
    · rw [List.takeWhile_cons, if_neg ha] at hx
      simp at hx

theorem scanRawUrlFuel_step_advance (base : Str) (n : Nat) (s : Str)
    (hne : s.isEmpty = false) (hP : base.isPrefixOf s = false) :
    scanRawUrlFuel base (n + 1) s = scanRawUrlFuel base n s.tail := by
  simp [scanRawUrlFuel, hne, hP]

theorem scanRawUrlFuel_step_emptyRun (base : Str) (n : Nat) (s : Str)
    (hne : s.isEmpty = false) (hP : base.isPrefixOf s = true)
    (hrun : (s.drop base.length).takeWhile (fun ch => !isStopChar ch) = []) :
    scanRawUrlFuel base (n + 1) s = scanRawUrlFuel base n s.tail := by
  simp [scanRawUrlFuel, hne, hP, hrun]

theorem scanRawUrlFuel_step_match (base : Str) (n : Nat) (s run : Str)
    (hne : s.isEmpty = false) (hP : base.isPrefixOf s = true)
    (hrun : (s.drop base.length).takeWhile (fun ch => !isStopChar ch) = run)
    (hrunE : run ≠ []) :
    scanRawUrlFuel base (n + 1) s
      = (base ++ run) :: scanRawUrlFuel base n ((s.drop base.length).drop run.length) := by
  simp [scanRawUrlFuel, hne, hP, hrun, hrunE]

theorem exists_append_of_isPrefixOf : ∀ {a s : Str}, a.isPrefixOf s = true →
    ∃ t, a ++ t = s := by
  intro a
  induction a with
  | nil => intro s h; exact ⟨s, rfl⟩
  | cons c a' ih =>
    intro s h
    cases s with
    | nil => simp [List.isPrefixOf] at h
    | cons b s' =>
      simp only [List.isPrefixOf, Bool.and_eq_true, beq_iff_eq] at h
      obtain ⟨t, ht⟩ := ih h.2
      exact ⟨t, by simp [h.1, ht]⟩

theorem scanRawUrlFuel_mem_delimited (base tail : Str)
    (hbase : ∀ c ∈ base, isStopChar c = false)
    (htail1 : tail ≠ []) (htail2 : ∀ c ∈ tail, isStopChar c = false) :
    ∀ (fuel : Nat) (pre post : Str),
      (pre ++ (base ++ tail) ++ post).length ≤ fuel →
      (pre = [] ∨ ∃ p' c0, pre = p' ++ [c0] ∧ isStopChar c0 = true) →
      (post = [] ∨ ∃ c0 r, post = c0 :: r ∧ isStopChar c0 = true) →
      (base ++ tail) ∈ scanRawUrlFuel base fuel (pre ++ (base ++ tail) ++ post) := by
  intro fuel
  induction fuel with
  | zero =>
    intro pre post hlen hpre hpost
    exfalso
    have htail_len : 1 ≤ tail.length := by
      cases tail with
      | nil => exact absurd rfl htail1
      | cons a t => simp
    rw [List.length_append, List.length_append, List.length_append] at hlen
    omega
  | succ n ih =>
    intro pre post hlen hpre hpost
    have htail_len : 1 ≤ tail.length := by
      cases tail with
      | nil => exact absurd rfl htail1
      | cons a t => simp
    have hpos : 0 < (pre ++ (base ++ tail) ++ post).length := by
      simp [List.length_append]
      omega
    have hne : (pre ++ (base ++ tail) ++ post).isEmpty = false := by
      cases hsn : pre ++ (base ++ tail) ++ post with
      | nil =>
        rw [hsn] at hpos
        simp at hpos
      | cons a t => rfl
    cases hpre with
    | inl h0 =>
      subst h0
      rw [List.nil_append] at hne ⊢
      have hP : base.isPrefixOf ((base ++ tail) ++ post) = true := by
        rw [List.append_assoc]
        exact isPrefixOf_append_self _ _
      have hdrop : ((base ++ tail) ++ post).drop base.length = tail ++ post := by
        rw [List.append_assoc]
        exact List.drop_left _ _
      have hrun : (((base ++ tail) ++ post).drop base.length).takeWhile
          (fun ch => !isStopChar ch) = tail := by
        rw [hdrop]
        refine takeWhile_append_delim _ _ _ (fun c hc => by simp [htail2 c hc]) ?_
        rcases hpost with rfl | ⟨c0, r, rfl, hc0⟩
        · exact Or.inl rfl
        · exact Or.inr ⟨c0, r, rfl, by simp [hc0]⟩
      rw [scanRawUrlFuel_step_match base n _ tail hne hP hrun htail1]
      exact List.mem_cons_self _ _
    | inr h0 =>
      obtain ⟨p', c0, rfl, hc0⟩ := h0
      have hadv : (base ++ tail) ∈
          scanRawUrlFuel base n (((p' ++ [c0]) ++ (base ++ tail) ++ post).tail) := by
        cases p' with
        | nil =>
          have hs2 : (([] : Str) ++ [c0]) ++ (base ++ tail) ++ post
              = c0 :: ((base ++ tail) ++ post) := by simp
          rw [hs2, List.tail_cons]
          have hres := ih [] post
            (by
              simp only [List.length_append, List.length_cons, List.length_nil,
                List.length_drop] at hlen ⊢
              omega) (Or.inl rfl) hpost
          simpa using hres
        | cons q q' =>
          have hs2 : ((q :: q') ++ [c0]) ++ (base ++ tail) ++ post
              = q :: ((q' ++ [c0]) ++ (base ++ tail) ++ post) := by simp
          rw [hs2, List.tail_cons]
          exact ih (q' ++ [c0]) post (by
              simp only [List.length_append, List.length_cons, List.length_nil,
                List.length_drop] at hlen ⊢
              omega)
            (Or.inr ⟨q', c0, rfl, hc0⟩) hpost
      by_cases hP : base.isPrefixOf ((p' ++ [c0]) ++ (base ++ tail) ++ post) = true
      · by_cases hrunE : (((p' ++ [c0]) ++ (base ++ tail) ++ post).drop
            base.length).takeWhile (fun ch => !isStopChar ch) = []
        · rw [scanRawUrlFuel_step_emptyRun base n _ hne hP hrunE]
          exact hadv
        · obtain ⟨t, ht⟩ := exists_append_of_isPrefixOf hP
          have hafter : ((p' ++ [c0]) ++ (base ++ tail) ++ post).drop base.length = t := by
            rw [← ht]
            exact List.drop_left _ _
          have hrun_t : (((p' ++ [c0]) ++ (base ++ tail) ++ post).drop
              base.length).takeWhile (fun ch => !isStopChar ch)
              = t.takeWhile (fun ch => !isStopChar ch) := by
            rw [hafter]
          rw [hrun_t] at hrunE
          obtain ⟨u, hu⟩ : ∃ u, t.takeWhile (fun ch => !isStopChar ch) ++ u = t :=
            ⟨t.dropWhile (fun ch => !isStopChar ch), List.takeWhile_append_dropWhile _ _⟩
          have hsm : (base ++ t.takeWhile (fun ch => !isStopChar ch)) ++ u
              = (p' ++ [c0]) ++ (base ++ tail) ++ post := by
            rw [List.append_assoc, hu]
            exact ht
          have hm_nonstop : ∀ c ∈ base ++ t.takeWhile (fun ch => !isStopChar ch),
              isStopChar c = false := by
            intro c hc
            rcases List.mem_append.mp hc with hc | hc
            · exact hbase c hc
            · have := mem_takeWhile_pred _ _ c hc
              simpa using this
          have hd : base.length + (t.takeWhile (fun ch => !isStopChar ch)).length
              ≤ p'.length := by
            by_contra hgt
            push_neg at hgt
            have hs4 : (p' ++ [c0]) ++ (base ++ tail) ++ post
                = (p' ++ [c0]) ++ ((base ++ tail) ++ post) := by simp
            have htake1 : ((p' ++ [c0]) ++ (base ++ tail) ++ post).take (p'.length + 1)
                = p' ++ [c0] := by
              rw [hs4]
              have hlen1 : p'.length + 1 = (p' ++ [c0]).length := by simp
              rw [hlen1, List.take_left]
            have htake2 : ((p' ++ [c0]) ++ (base ++ tail) ++ post).take (p'.length + 1)
                = (base ++ t.takeWhile (fun ch => !isStopChar ch)).take (p'.length + 1) := by
              rw [← hsm]
              exact List.take_append_of_le_length (by
                simp only [List.length_append]
                omega)
            have hc0m : c0 ∈ base ++ t.takeWhile (fun ch => !isStopChar ch) := by
              have hmem : c0 ∈ (base ++ t.takeWhile (fun ch => !isStopChar ch)).take
                  (p'.length + 1) := by
                rw [← htake2, htake1]
                simp
              exact List.take_subset _ _ hmem
            have hff := hm_nonstop c0 hc0m
            simp [hc0] at hff
          rw [scanRawUrlFuel_step_match base n _
            (t.takeWhile (fun ch => !isStopChar ch)) hne hP hrun_t hrunE]
          refine List.mem_cons.mpr (Or.inr ?_)
          have hrunlen : 1 ≤ (t.takeWhile (fun ch => !isStopChar ch)).length := by
            cases hE : t.takeWhile (fun ch => !isStopChar ch) with
            | nil => exact absurd hE hrunE
            | cons a r => simp
          have hnext : ((((p' ++ [c0]) ++ (base ++ tail) ++ post).drop base.length).drop
              (t.takeWhile (fun ch => !isStopChar ch)).length)
              = ((p'.drop (base.length + (t.takeWhile (fun ch => !isStopChar ch)).length)
                  ++ [c0]) ++ (base ++ tail) ++ post) := by
            rw [hafter]
            have h3 := List.drop_left (t.takeWhile (fun ch => !isStopChar ch)) u
            rw [hu] at h3
            rw [h3]
            have h4 : u = ((p' ++ [c0]) ++ (base ++ tail) ++ post).drop
                (base.length + (t.takeWhile (fun ch => !isStopChar ch)).length) := by
              rw [← hsm]
              have h5 : base.length + (t.takeWhile (fun ch => !isStopChar ch)).length
                  = (base ++ t.takeWhile (fun ch => !isStopChar ch)).length := by
                simp
              rw [h5, List.drop_left]
            rw [h4]
            rw [List.drop_append_of_le_length (by simp [List.length_append]; omega)]
            rw [List.drop_append_of_le_length (by simp [List.length_append]; omega)]
            rw [List.drop_append_of_le_length hd]
          rw [hnext]
          refine ih _ post ?_ (Or.inr ⟨_, c0, rfl, hc0⟩) hpost
          simp only [List.length_append, List.length_cons, List.length_nil,
            List.length_drop] at hlen ⊢
          omega
      · rw [scanRawUrlFuel_step_advance base n _ hne (by
          simpa only [Bool.not_eq_true] using hP)]
        exact hadv

theorem extractS3KeyFromUrl_append (base x : Str) (hx1 : x ≠ [])
    (hx2 : ∀ c ∈ x, c ≠ '?' ∧ c ≠ '#') :
    extractS3KeyFromUrl base (base ++ '/' :: x) = some x := by
  have hidx : indexOfSub base (base ++ '/' :: x) = some 0 :=
    indexOfSub_of_isPrefixOf (isPrefixOf_append_self _ _)
  have hq1 : x.takeWhile (· != '?') = x :=
    takeWhile_eq_self_of_all _ _ (fun c hc => by simp [(hx2 c hc).1])
  have hq2 : x.takeWhile (· != '#') = x :=
    takeWhile_eq_self_of_all _ _ (fun c hc => by simp [(hx2 c hc).2])
  simp [extractS3KeyFromUrl, hidx, List.drop_left, hq1, hq2, hx1]

theorem mem_findAllObsidianReferences (baseUrl : Str) (docs : List Str) {d u r : Str}
    (hd : d ∈ docs) (hu : u ∈ scanRawUrl baseUrl d)
    (hr : extractS3KeyFromUrl baseUrl u = some r) :
    r ∈ findAllObsidianReferences baseUrl docs := by
  unfold findAllObsidianReferences
  refine List.mem_flatMap.mpr ⟨d, hd, ?_⟩
  refine List.mem_filterMap.mpr ⟨u, ?_, hr⟩
  simp only [List.mem_append]
  exact Or.inr hu

theorem mem_normalizeReferences_self (S : S3UploaderSettings) (s3Files refs : List Str)
    {r : Str} (hr : r ∈ refs) : r ∈ normalizeReferences S s3Files refs := by
  unfold normalizeReferences
  exact List.mem_flatMap.mpr ⟨r, hr, List.mem_cons_self _ _⟩

theorem mem_normalizeReferences_bucketStrip (S : S3UploaderSettings)
    (s3Files refs : List Str) {f : Str} (hps : S.usePathStyle = true)
    (hb : S.bucketName ≠ []) (hr : (S.bucketName ++ '/' :: f) ∈ refs) :
    f ∈ normalizeReferences S s3Files refs := by
  unfold normalizeReferences
  refine List.mem_flatMap.mpr ⟨S.bucketName ++ '/' :: f, hr, ?_⟩
  refine List.mem_cons.mpr (Or.inr ?_)
  refine List.mem_append.mpr (Or.inl ?_)
  have hpre : (S.bucketName ++ ['/']).isPrefixOf (S.bucketName ++ '/' :: f) = true := by
    rw [List.append_cons S.bucketName '/' f]
    exact isPrefixOf_append_self _ _
  have hdrop : (S.bucketName ++ '/' :: f).drop (S.bucketName.length + 1) = f := by
    rw [List.append_cons S.bucketName '/' f]
    have hlen : S.bucketName.length + 1 = (S.bucketName ++ ['/']).length := by simp
    rw [hlen, List.drop_left]
  simp [hps, hb, hpre, hdrop]

/-- C1 (amended): the reconciler's diff phase reports no stored key unused,
provided the claim's hypothesis that each key's URL appears verbatim in some
document is strengthened by the well-formedness the code's raw-URL pattern
needs: the base URL, the bucket name (in path-style mode) and the keys
consist of non-delimiter characters without question marks or hash signs,
the keys are non-empty, and each key's URL occurrence is immediately
preceded and followed by a delimiter character or a text boundary. -/
theorem c1_reconciler_safety_amended (S : S3UploaderSettings) (s3Files docs : List Str)
    (hbase : S.baseUrl ≠ [] ∧ ∀ c ∈ S.baseUrl, isStopChar c = false)
    (hbucket : S.usePathStyle = true → S.bucketName ≠ [] ∧
      ∀ c ∈ S.bucketName, isStopChar c = false ∧ c ≠ '?' ∧ c ≠ '#')
    (hkeys : ∀ f ∈ s3Files, f ≠ [] ∧
      ∀ c ∈ f, isStopChar c = false ∧ c ≠ '?' ∧ c ≠ '#')
    (hocc : ∀ f ∈ s3Files, ∃ d ∈ docs, ∃ pre post,
      d = pre ++ computeCloudUrl S f ++ post ∧
      (pre = [] ∨ ∃ p' c0, pre = p' ++ [c0] ∧ isStopChar c0 = true) ∧
      (post = [] ∨ ∃ c0 r, post = c0 :: r ∧ isStopChar c0 = true)) :
    computeUnusedFiles S s3Files docs = [] := by
  rw [show computeUnusedFiles S s3Files docs = s3Files.filter (fun file =>
      !((normalizeReferences S s3Files
          (findAllObsidianReferences S.baseUrl docs)).contains file) &&
      !((normalizeReferences S s3Files
          (findAllObsidianReferences S.baseUrl docs)).contains
            (S.folderPath ++ '/' :: file))) from rfl]
  rw [List.filter_eq_nil_iff]
  intro f hf
  obtain ⟨hfne, hfchars⟩ := hkeys f hf
  obtain ⟨d, hd, pre, post, hdoc, hpre, hpost⟩ := hocc f hf
  have hfm : f ∈ normalizeReferences S s3Files
      (findAllObsidianReferences S.baseUrl docs) := by
    cases hps : S.usePathStyle with
    | false =>
      have hurl : computeCloudUrl S f = S.baseUrl ++ '/' :: f := by
        simp [computeCloudUrl, hps]
      have htail2 : ∀ c ∈ ('/' :: f), isStopChar c = false := by
        intro c hc
        rcases List.mem_cons.mp hc with rfl | hc'
        · decide
        · exact (hfchars c hc').1
      have hu : (S.baseUrl ++ '/' :: f) ∈ scanRawUrl S.baseUrl d := by
        unfold scanRawUrl
        rw [hdoc, hurl]
        exact scanRawUrlFuel_mem_delimited S.baseUrl ('/' :: f) hbase.2 (by simp)
          htail2 _ pre post (le_refl _) hpre hpost
      have hr : extractS3KeyFromUrl S.baseUrl (S.baseUrl ++ '/' :: f) = some f :=
        extractS3KeyFromUrl_append _ _ hfne
          (fun c hc => ⟨(hfchars c hc).2.1, (hfchars c hc).2.2⟩)
      exact mem_normalizeReferences_self _ _ _
        (mem_findAllObsidianReferences _ _ hd hu hr)
    | true =>
      obtain ⟨hbne, hbchars⟩ := hbucket hps
      have hurl : computeCloudUrl S f
          = S.baseUrl ++ '/' :: (S.bucketName ++ '/' :: f) := by
        simp [computeCloudUrl, hps]
      have htail2 : ∀ c ∈ ('/' :: (S.bucketName ++ '/' :: f)), isStopChar c = false := by
        intro c hc
        rcases List.mem_cons.mp hc with rfl | hc'
        · decide
        · rcases List.mem_append.mp hc' with hc'' | hc''
          · exact (hbchars c hc'').1
          · rcases List.mem_cons.mp hc'' with rfl | hc'''
            · decide
            · exact (hfchars c hc''').1
      have hu : (S.baseUrl ++ '/' :: (S.bucketName ++ '/' :: f))
          ∈ scanRawUrl S.baseUrl d := by
        unfold scanRawUrl
        rw [hdoc, hurl]
        exact scanRawUrlFuel_mem_delimited S.baseUrl ('/' :: (S.bucketName ++ '/' :: f))
          hbase.2 (by simp) htail2 _ pre post (le_refl _) hpre hpost
      have hr : extractS3KeyFromUrl S.baseUrl
          (S.baseUrl ++ '/' :: (S.bucketName ++ '/' :: f))
          = some (S.bucketName ++ '/' :: f) := by
        refine extractS3KeyFromUrl_append _ _ (by simp) ?_
        intro c hc
        rcases List.mem_append.mp hc with hc' | hc'
        · exact ⟨(hbchars c hc').2.1, (hbchars c hc').2.2⟩
        · rcases List.mem_cons.mp hc' with rfl | hc''
          · exact ⟨by decide, by decide⟩
          · exact ⟨(hfchars c hc'').2.1, (hfchars c hc'').2.2⟩
      exact mem_normalizeReferences_bucketStrip _ _ _ hps hbne
        (mem_findAllObsidianReferences _ _ hd hu hr)
  have hcont : (normalizeReferences S s3Files
      (findAllObsidianReferences S.baseUrl docs)).contains f = true :=
    List.elem_eq_true_of_mem hfm
  simp [hcont]
  intro hno
  exact absurd hfm hno

/-- Witness for C1 (amended): a concrete store with one key whose URL occurs
in the document surrounded by spaces is fully reconciled — nothing is
reported unused. -/
theorem c1_witness :
    computeUnusedFiles { egSettings with folderPath := [] } ["a.png".data]
      ["see https://c/a.png ok".data] = [] := by
  apply c1_reconciler_safety_amended
  · exact ⟨by decide, by decide⟩
  · intro h
    exact absurd h (by decide)
  · intro f hf
    have hfe : f = "a.png".data := by simpa using hf
    subst hfe
    exact ⟨by decide, by decide⟩
  · intro f hf
    have hfe : f = "a.png".data := by simpa using hf
    subst hfe
    refine ⟨"see https://c/a.png ok".data, by simp, "see ".data, " ok".data, ?_, ?_, ?_⟩
    · decide
    · exact Or.inr ⟨"see".data, ' ', by decide, by decide⟩
    · exact Or.inr ⟨' ', "ok".data, by decide, by decide⟩
